import Mathlib

/-!
# go-quote-ecs: the quote scraper and its `/quotes` handler

A shallow embedding of `main.go` (`Quote`, `ScrapeQuotes`, `HandleQuotes`) together with the
library routines the two functions call: `strings.TrimSpace`, `unicode/utf8`, the goquery /
cascadia selection used by colly's `OnHTML`, `ChildText` and `ChildAttrs`, and the
`encoding/json` encoder behind `json.NewEncoder(w).Encode`.

Conventions of the embedding:

* a Go `string` is a sequence of bytes (`GoString`), each byte a natural number below 256;
* a Go slice is `Option (List α)`: `none` is the nil slice, `some []` an empty non-nil slice;
* the outbound GET and the HTML parse are the environment: `Fetch` records what `c.Visit`
  met (an error, or a parsed document handed to the `OnHTML` callbacks);
* `log.Fatalf` ends the run: `Run.exit` carries the exit code and the logged message.
-/

namespace GoQuote

/-! ## Strings -/

/-- A Go string: its bytes, in order. -/
abbrev GoString := List Nat

/-- The bytes of an ASCII literal. -/
def ascii (s : String) : GoString := s.data.map Char.toNat

/-- A Go slice: `none` is nil, `some l` a non-nil slice with elements `l`. -/
abbrev Slice (α : Type) := Option (List α)

/-- Go `len(s)` on a slice. -/
def len {α : Type} : Slice α → Nat
  | none => 0
  | some l => l.length

/-- Go `append(s, x)`: appending to the nil slice allocates. -/
def append {α : Type} (s : Slice α) (x : α) : Slice α :=
  match s with
  | none => some [x]
  | some l => some (l ++ [x])

/-- Go `s[:n]` for `n ≤ len(s)` (the only use in `main.go` is guarded by `len(quotes) > 100`). -/
def sliceTo {α : Type} (s : Slice α) (n : Nat) : Slice α :=
  match s with
  | none => none
  | some l => some (l.take n)

/-- The elements of a slice, nil read as no elements. -/
def elems {α : Type} : Slice α → List α
  | none => []
  | some l => l

/-! ## unicode/utf8 -/

/-- The rune `utf8.RuneError`, U+FFFD. -/
def RuneError : Nat := 0xFFFD

/-- `utf8.DecodeRuneInString`: the first rune of `s` and its width in bytes; `(RuneError, 1)`
for an invalid or truncated encoding, `(RuneError, 0)` for the empty string. The table `first`
and `acceptRanges` are written out as comparisons on the lead byte, and the masks and shifts as
`%` and `*`. -/
def DecodeRuneInString (s : GoString) : Nat × Nat :=
  match s with
  | [] => (RuneError, 0)
  | s0 :: t =>
    if s0 < 0x80 then (s0, 1)
    else if s0 < 0xC2 ∨ 0xF4 < s0 then (RuneError, 1)
    else
      let sz := if s0 < 0xE0 then 2 else if s0 < 0xF0 then 3 else 4
      let lo := if s0 = 0xE0 then 0xA0 else if s0 = 0xF0 then 0x90 else 0x80
      let hi := if s0 = 0xED then 0x9F else if s0 = 0xF4 then 0x8F else 0xBF
      if s.length < sz then (RuneError, 1)
      else
        match t with
        | [] => (RuneError, 1)
        | s1 :: t1 =>
          if s1 < lo ∨ hi < s1 then (RuneError, 1)
          else if sz ≤ 2 then ((s0 % 32) * 64 + s1 % 64, 2)
          else
            match t1 with
            | [] => (RuneError, 1)
            | s2 :: t2 =>
              if s2 < 0x80 ∨ 0xBF < s2 then (RuneError, 1)
              else if sz ≤ 3 then ((s0 % 16) * 4096 + (s1 % 64) * 64 + s2 % 64, 3)
              else
                match t2 with
                | [] => (RuneError, 1)
                | s3 :: _ =>
                  if s3 < 0x80 ∨ 0xBF < s3 then (RuneError, 1)
                  else ((s0 % 8) * 262144 + (s1 % 64) * 4096 + (s2 % 64) * 64 + s3 % 64, 4)

/-- `utf8.RuneStart`: the byte is not a continuation byte. -/
def RuneStart (b : Nat) : Bool := decide (b / 64 ≠ 2)

/-- `utf8.DecodeLastRuneInString`: the last rune of `s` and its width. -/
def DecodeLastRuneInString (s : GoString) : Nat × Nat :=
  let n := s.length
  if n = 0 then (RuneError, 0)
  else
    let r := s.getD (n - 1) 0
    if r < 0x80 then (r, 1)
    else
      let lim := n - 4
      -- walk back from `n - 2` to the first rune start, not below `lim`
      let back := (List.range (n - 1 - lim)).map (fun k => n - 2 - k)
      let start :=
        match back.find? (fun i => RuneStart (s.getD i 0)) with
        | some i => i
        | none => if lim = 0 then 0 else lim - 1
      let (r, size) := DecodeRuneInString (s.drop start)
      if start + size ≠ n then (RuneError, 1) else (r, size)

/-- `utf8.EncodeRune`: the UTF-8 encoding of rune `r`; surrogates and values above U+10FFFF
are encoded as U+FFFD. -/
def EncodeRune (r : Nat) : GoString :=
  if r ≤ 0x7F then [r]
  else if r ≤ 0x7FF then [0xC0 + r / 64, 0x80 + r % 64]
  else if 0x10FFFF < r ∨ (0xD800 ≤ r ∧ r ≤ 0xDFFF) then [0xEF, 0xBF, 0xBD]
  else if r ≤ 0xFFFF then [0xE0 + r / 4096, 0x80 + r / 64 % 64, 0x80 + r % 64]
  else [0xF0 + r / 262144, 0x80 + r / 4096 % 64, 0x80 + r / 64 % 64, 0x80 + r % 64]

/-- The UTF-8 bytes of a sequence of Unicode scalar values. -/
def utf8 (cs : List Char) : GoString := cs.flatMap (fun c => EncodeRune c.toNat)

/-! ## unicode and strings -/

/-- `unicode.IsSpace`: the Latin-1 cases of the switch, then the `White_Space` range table. -/
def IsSpace (r : Nat) : Bool :=
  if r ≤ 0xFF then
    decide (r = 0x09 ∨ r = 0x0A ∨ r = 0x0B ∨ r = 0x0C ∨ r = 0x0D ∨ r = 0x20 ∨ r = 0x85 ∨ r = 0xA0)
  else
    decide (r = 0x1680 ∨ (0x2000 ≤ r ∧ r ≤ 0x200A) ∨ r = 0x2028 ∨ r = 0x2029 ∨ r = 0x202F
      ∨ r = 0x205F ∨ r = 0x3000)

/-- The table `asciiSpace` of package `strings`. -/
def asciiSpace (c : Nat) : Bool :=
  decide (c = 0x09 ∨ c = 0x0A ∨ c = 0x0B ∨ c = 0x0C ∨ c = 0x0D ∨ c = 0x20)

/-- The loop of `strings.TrimLeftFunc` (through `indexFunc`): drop leading runes satisfying
`f`; `fuel` bounds the number of runes. -/
def trimLeftLoop (f : Nat → Bool) : Nat → GoString → GoString
  | 0, s => s
  | fuel + 1, s =>
    if s = [] then []
    else
      let (r, size) := DecodeRuneInString s
      if f r then trimLeftLoop f fuel (s.drop size) else s

/-- `strings.TrimLeftFunc`. -/
def TrimLeftFunc (s : GoString) (f : Nat → Bool) : GoString := trimLeftLoop f s.length s

/-- The loop of `lastIndexFunc(s, f, false)` on the prefix `p = s[0:i]`: the byte index of the
last rune not satisfying `f`, `none` for Go's `-1`. -/
def lastIndexLoop (f : Nat → Bool) : Nat → GoString → Option Nat
  | 0, _ => none
  | fuel + 1, p =>
    if p = [] then none
    else
      let (r, size) := DecodeLastRuneInString p
      let i := p.length - size
      if f r then lastIndexLoop f fuel (p.take i) else some i

/-- `strings.TrimRightFunc`. -/
def TrimRightFunc (s : GoString) (f : Nat → Bool) : GoString :=
  match lastIndexLoop f s.length s with
  | some i =>
    if 0x80 ≤ s.getD i 0 then s.take (i + (DecodeRuneInString (s.drop i)).2)
    else s.take (i + 1)
  | none => []

/-- `strings.TrimFunc`. -/
def TrimFunc (s : GoString) (f : Nat → Bool) : GoString := TrimRightFunc (TrimLeftFunc s f) f

/-- The second loop of `strings.TrimSpace`, run on the reversed remainder `s[start:]`. -/
def trimSpaceStop : GoString → GoString
  | [] => []
  | c :: t =>
    if 0x80 ≤ c then TrimRightFunc (c :: t).reverse IsSpace
    else if asciiSpace c then trimSpaceStop t
    else (c :: t).reverse

/-- `strings.TrimSpace`: the ASCII fast path from both ends, falling back to
`TrimFunc(·, unicode.IsSpace)` at the first non-ASCII byte. -/
def TrimSpace : GoString → GoString
  | [] => []
  | c :: t =>
    if 0x80 ≤ c then TrimFunc (c :: t) IsSpace
    else if asciiSpace c then TrimSpace t
    else trimSpaceStop (c :: t).reverse

/-! ## golang.org/x/net/html nodes and cascadia selectors -/

/-- An `html.Node` with its subtree: `Data` is the tag name of an element and the content of
a text or comment node; `Attr` is the list of `(Key, Val)` pairs. -/
inductive Node where
  | document (children : List Node)
  | element (data : GoString) (attr : List (GoString × GoString)) (children : List Node)
  | text (data : GoString)
  | comment (data : GoString)
  | doctype (data : GoString)

/-- The children of a node (`FirstChild`, then `NextSibling`). -/
def Node.children : Node → List Node
  | .document cs => cs
  | .element _ _ cs => cs
  | _ => []

/-- `n.Type == html.ElementNode`. -/
def Node.isElement : Node → Bool
  | .element _ _ _ => true
  | _ => false

/-- `n.Attr` (empty outside elements). -/
def Node.attrs : Node → List (GoString × GoString)
  | .element _ a _ => a
  | _ => []

/-- A node of the document together with its chain of ancestors, nearest first: what Go reaches
through `n.Parent`. -/
structure Loc where
  anc : List Node
  node : Node

/-- The loop of cascadia's `matchInclude(val, s, false)`: `s` is a whitespace-separated list
that includes `val`. -/
def matchIncludeLoop (val : GoString) : Nat → GoString → Bool
  | 0, _ => false
  | fuel + 1, s =>
    if s = [] then false
    else
      match s.findIdx? (fun b => decide (b = 0x20 ∨ b = 0x09 ∨ b = 0x0D ∨ b = 0x0A ∨ b = 0x0C)) with
      | none => decide (s = val)
      | some i => if s.take i = val then true else matchIncludeLoop val fuel (s.drop (i + 1))

/-- Cascadia `matchInclude`. -/
def matchInclude (val s : GoString) : Bool := matchIncludeLoop val (s.length + 1) s

/-- Cascadia `matchAttribute`: an element with an attribute `key` whose value satisfies `f`. -/
def matchAttribute (n : Node) (key : GoString) (f : GoString → Bool) : Bool :=
  n.isElement && n.attrs.any (fun a => decide (a.1 = key) && f a.2)

/-- The simple selectors used by `main.go`: a tag name (`a`) and a class (`.quote`). -/
inductive SimpleSel where
  | tag (name : GoString)
  | cls (name : GoString)

/-- Cascadia `tagSelector.Match` and `classSelector.Match`. -/
def SimpleSel.Match : SimpleSel → Node → Bool
  | .tag name, .element d _ _ => decide (d = name)
  | .tag _, _ => false
  | .cls name, n => matchAttribute n (ascii "class") (matchInclude name)

/-- A compiled selector: a compound selector (`a.tag`), or two selectors joined by the
descendant combinator (`.tags a.tag`). -/
inductive Sel where
  | compound (selectors : List SimpleSel)
  | combined (first : Sel) (second : Sel)

/-- Cascadia `Match`: `compoundSelector.Match`, and `descendantMatch` for the combinator,
which walks every ancestor of the node up to the document root. -/
def Sel.Match : Sel → List Node → Node → Bool
  | .compound selectors, _, n =>
    if selectors.isEmpty then n.isElement else selectors.all (fun sel => sel.Match n)
  | .combined first second, anc, n =>
    second.Match anc n &&
      anc.tails.any (fun t =>
        match t with
        | p :: ps => first.Match ps p
        | [] => false)

/-- The selector `.quote` passed to `c.OnHTML`. -/
def selQuote : Sel := .compound [.cls (ascii "quote")]

/-- The selector `.text`. -/
def selText : Sel := .compound [.cls (ascii "text")]

/-- The selector `.author`. -/
def selAuthor : Sel := .compound [.cls (ascii "author")]

/-- The selector `.tags a.tag`. -/
def selTagLinks : Sel :=
  .combined (.compound [.cls (ascii "tags")]) (.compound [.tag (ascii "a"), .cls (ascii "tag")])

/-! ## goquery selections -/

mutual
/-- Cascadia `MatchAll` (`matchAllInto`): the node itself when it matches, then the matches
of its subtree, in document order. -/
def matchAll (m : Sel) : List Node → Node → List Loc
  | anc, .document cs =>
    (if m.Match anc (.document cs) then [⟨anc, .document cs⟩] else [])
      ++ matchAllList m (.document cs :: anc) cs
  | anc, .element d a cs =>
    (if m.Match anc (.element d a cs) then [⟨anc, .element d a cs⟩] else [])
      ++ matchAllList m (.element d a cs :: anc) cs
  | anc, n => if m.Match anc n then [⟨anc, n⟩] else []
/-- The loop of `matchAllInto` over the children of a node. -/
def matchAllList (m : Sel) : List Node → List Node → List Loc
  | _, [] => []
  | anc, c :: cs => matchAll m anc c ++ matchAllList m anc cs
end

/-- Goquery `Selection.Find` on a selection of one node (`findWithMatcher`): the matches
among the descendants of the node, in document order. With a single root no node is reached
twice, so the duplicate filter of `mapNodes` removes nothing. -/
def Find (s : Loc) (m : Sel) : List Loc :=
  s.node.children.flatMap (fun c => if c.isElement then matchAll m (s.node :: s.anc) c else [])

mutual
/-- The inner function of goquery `Selection.Text`: the data of every text node of the
subtree, concatenated. -/
def nodeText : Node → GoString
  | .text d => d
  | .document cs => nodeTextList cs
  | .element _ _ cs => nodeTextList cs
  | _ => []
/-- The loop of `nodeText` over the children of a node. -/
def nodeTextList : List Node → GoString
  | [] => []
  | c :: cs => nodeText c ++ nodeTextList cs
end

/-- Goquery `Selection.Text`: the combined text of each node of the selection. -/
def Text (s : List Loc) : GoString := s.flatMap (fun l => nodeText l.node)

/-- Goquery `Selection.Attr` on a selection of one node: the value of the first attribute
named `attrName`, if the node has one. -/
def Attr (s : Loc) (attrName : GoString) : Option GoString :=
  (s.node.attrs.find? (fun a => decide (a.1 = attrName))).map (fun a => a.2)

/-! ## colly -/

/-- Colly `HTMLElement`: `DOM` is the goquery selection holding the matched node. -/
structure HTMLElement where
  DOM : Loc

/-- Colly `ChildText`: the concatenated and stripped text content of the matching elements,
`strings.TrimSpace(h.DOM.Find(goquerySelector).Text())`. -/
def HTMLElement.ChildText (h : HTMLElement) (goquerySelector : Sel) : GoString :=
  TrimSpace (Text (Find h.DOM goquerySelector))

/-- Colly `ChildAttrs`: starting from `var res []string` (nil), appends the stripped value of
attribute `attrName` of each matching element that carries the attribute. -/
def HTMLElement.ChildAttrs (h : HTMLElement) (goquerySelector : Sel) (attrName : GoString) :
    Slice GoString :=
  (Find h.DOM goquerySelector).foldl
    (fun res s =>
      match Attr s attrName with
      | some attr => append res (TrimSpace attr)
      | none => res)
    none

/-- What `c.Visit("https://quotes.toscrape.com")` meets: an error (transport failure, error
status, ...) with its message, or a response parsed into the document `doc`. -/
inductive Fetch where
  | failed (err : GoString)
  | page (doc : Node)

/-- Colly `Collector.Visit` with one `OnHTML(selector, f)` callback registered: on a page, `f`
runs once per node of `doc.Find(selector)`, in order, threading the state the callback closes
over; the second component is the returned error. -/
def Visit {σ : Type} (fetch : Fetch) (selector : Sel) (f : HTMLElement → σ → σ) (st : σ) :
    σ × Option GoString :=
  match fetch with
  | .failed err => (st, some err)
  | .page doc => ((Find ⟨[], doc⟩ selector).foldl (fun st l => f ⟨l⟩ st) st, none)

/-! ## main.go: Quote and ScrapeQuotes -/

/-- The struct `Quote`. -/
structure Quote where
  Text : GoString
  Author : GoString
  Tags : Slice GoString
deriving DecidableEq

/-- How a call ends: it returns a value, or the process exits (`os.Exit(code)` after the
message `log` was logged). -/
inductive Run (α : Type) where
  | done (val : α)
  | exit (code : Nat) (log : GoString)
deriving DecidableEq

/-- The callback registered by `c.OnHTML(".quote", ...)`; `quotes` is the captured variable. -/
def onQuote (e : HTMLElement) (quotes : Slice Quote) : Slice Quote :=
  let text := e.ChildText selText
  let author := e.ChildText selAuthor
  let tags := e.ChildAttrs selTagLinks (ascii "href")
  append quotes { Text := text, Author := author, Tags := tags }

/-- The function `ScrapeQuotes`: `quotes := []Quote{}`, the visit, and `log.Fatalf` (print, then
`os.Exit(1)`) when the visit reports an error. -/
def ScrapeQuotes (fetch : Fetch) : Run (Slice Quote) :=
  let quotes : Slice Quote := some []
  match Visit fetch selQuote onQuote quotes with
  | (_, some err) => .exit 1 (ascii "Failed to scrape: " ++ err)
  | (quotes, none) => .done quotes

/-! ## encoding/json: the encoder -/

/-- The digit table `hex` of `encoding/json`. -/
def hex (n : Nat) : Nat := (ascii "0123456789abcdef").getD n 0

/-- The table `htmlSafeSet`: the ASCII bytes written without escaping when HTML escaping is on
(the default of `json.NewEncoder`): `0x20..0x7F` except the double quote, `&`, `<`, `>` and the
backslash. -/
def htmlSafeSet (b : Nat) : Bool :=
  decide (0x20 ≤ b ∧ b ≤ 0x7F ∧ b ≠ 0x22 ∧ b ≠ 0x26 ∧ b ≠ 0x3C ∧ b ≠ 0x3E ∧ b ≠ 0x5C)

/-- The `switch b` of `appendString` for an ASCII byte outside `htmlSafeSet` (Go 1.22 and
later; earlier releases write backspace and form feed as `\u0008` and `\u000c`, which the
reader below decodes alike). -/
def escapeByte (b : Nat) : GoString :=
  if b = 0x5C ∨ b = 0x22 then [0x5C, b]
  else if b = 0x08 then ascii "\\b"
  else if b = 0x0C then ascii "\\f"
  else if b = 0x0A then ascii "\\n"
  else if b = 0x0D then ascii "\\r"
  else if b = 0x09 then ascii "\\t"
  else ascii "\\u00" ++ [hex (b / 16), hex (b % 16)]

/-- The loop of `appendString(dst, src, escapeHTML = true)` on the rest `src[i:]` of the
string; the copies of the runs `src[start:i]` are emitted byte by byte. -/
def appendStringLoop : Nat → GoString → GoString
  | 0, _ => []
  | fuel + 1, src =>
    match src with
    | [] => []
    | b :: rest =>
      if b < 0x80 then
        if htmlSafeSet b then b :: appendStringLoop fuel rest
        else escapeByte b ++ appendStringLoop fuel rest
      else
        let (c, size) := DecodeRuneInString (src.take 4)
        if c = RuneError ∧ size = 1 then ascii "\\ufffd" ++ appendStringLoop fuel (src.drop size)
        else if c = 0x2028 ∨ c = 0x2029 then
          ascii "\\u202" ++ [hex (c % 16)] ++ appendStringLoop fuel (src.drop size)
        else src.take size ++ appendStringLoop fuel (src.drop size)

/-- The function `appendString`: a JSON string literal for `src`. -/
def appendString (src : GoString) : GoString :=
  [0x22] ++ appendStringLoop src.length src ++ [0x22]

/-- The loop of the array encoder from index `i`: a comma before every element but the first. -/
def arrayElems {α : Type} (enc : α → GoString) : Nat → List α → GoString
  | _, [] => []
  | i, x :: xs => (if 0 < i then [0x2C] else []) ++ enc x ++ arrayElems enc (i + 1) xs

/-- The slice encoder: `null` for a nil slice, else the bracketed elements. -/
def encodeSlice {α : Type} (enc : α → GoString) : Slice α → GoString
  | none => ascii "null"
  | some l => [0x5B] ++ arrayElems enc 0 l ++ [0x5D]

/-- The struct encoder for `Quote`: the fields in declaration order under the names of their
`json` tags, `quote`, `author` and `tags` (in `main.go` the delimiters of the three tags read
U+2060 U+202F where Go has a back quote; the tags are taken as `json:"quote"`, `json:"author"`
and `json:"tags"`). No field has `omitempty`. -/
def encodeQuote (q : Quote) : GoString :=
  ascii "\x7b\"quote\":" ++ appendString q.Text
    ++ ascii ",\"author\":" ++ appendString q.Author
    ++ ascii ",\"tags\":" ++ encodeSlice appendString q.Tags
    ++ ascii "\x7d"

/-- The function `json.Marshal` at type `[]Quote`, with HTML escaping. -/
def marshal (quotes : Slice Quote) : GoString := encodeSlice encodeQuote quotes

/-! ## net/http and HandleQuotes -/

/-- The part of an `http.ResponseWriter` the handler touches: the header map and the bytes
written to the body. -/
structure ResponseWriter where
  header : List (String × List String)
  body : GoString
deriving DecidableEq

/-- The method `Header().Set`: the key now maps to the single value. -/
def ResponseWriter.SetHeader (w : ResponseWriter) (key value : String) : ResponseWriter :=
  { w with header := (key, [value]) :: w.header.filter (fun kv => kv.1 ≠ key) }

/-- The method `Header().Get`: the first value of the key, the empty string when absent. -/
def ResponseWriter.GetHeader (w : ResponseWriter) (key : String) : String :=
  match w.header.find? (fun kv => kv.1 = key) with
  | some (_, v :: _) => v
  | _ => ""

/-- The method `Write`: the bytes are added to the body. -/
def ResponseWriter.Write (w : ResponseWriter) (b : GoString) : ResponseWriter :=
  { w with body := w.body ++ b }

/-- The call `json.NewEncoder(w).Encode(quotes)`: the encoding of the value followed by a
newline, in one `Write`. -/
def Encode (w : ResponseWriter) (quotes : Slice Quote) : ResponseWriter :=
  w.Write (marshal quotes ++ [0x0A])

/-- Lines 52 to 55 of `HandleQuotes`: the limit to 100 quotes. -/
def limitQuotes (quotes : Slice Quote) : Slice Quote :=
  if len quotes > 100 then sliceTo quotes 100 else quotes

/-- The function `HandleQuotes`: the writer after the call and how the call ended. When
`ScrapeQuotes` exits the process, the writer is as the handler found it. -/
def HandleQuotes (fetch : Fetch) (w : ResponseWriter) : ResponseWriter × Run Unit :=
  match ScrapeQuotes fetch with
  | .exit code log => (w, .exit code log)
  | .done quotes =>
    let quotes := limitQuotes quotes
    let w := w.SetHeader "Content-Type" "application/json"
    (Encode w quotes, .done ())

/-! ## encoding/json: decoding into `[]Quote`

What `json.Unmarshal(data, &quotes)` with `quotes []Quote` computes, on the JSON texts made of
an array (or `null`) of objects whose members are named `quote`, `author` and `tags`, in any
order, with insignificant whitespace between tokens. Other texts are rejected (`none`). String
literals are read as the scanner and `unquote` read them. -/

/-- Skips the insignificant whitespace of JSON: space, tab, carriage return, line feed. -/
def skipWS : GoString → GoString
  | [] => []
  | c :: t => if c = 0x20 ∨ c = 0x09 ∨ c = 0x0D ∨ c = 0x0A then skipWS t else c :: t

/-- The digit switch of `getu4`: the value of a hexadecimal digit. -/
def hexVal (c : Nat) : Option Nat :=
  if 0x30 ≤ c ∧ c ≤ 0x39 then some (c - 0x30)
  else if 0x61 ≤ c ∧ c ≤ 0x66 then some (c - 0x61 + 10)
  else if 0x41 ≤ c ∧ c ≤ 0x46 then some (c - 0x41 + 10)
  else none

/-- The function `getu4`: the rune written `\uXXXX` at the head of `s`; `none` is Go's `-1`. -/
def getu4 (s : GoString) : Option Nat :=
  match s with
  | e :: u :: a :: b :: c :: d :: _ =>
    if e = 0x5C ∧ u = 0x75 then
      match hexVal a, hexVal b, hexVal c, hexVal d with
      | some a, some b, some c, some d => some (((a * 16 + b) * 16 + c) * 16 + d)
      | _, _, _, _ => none
    else none
  | _ => none

/-- The function `utf16.DecodeRune`: the rune of a surrogate pair, U+FFFD when the two values
are not one. -/
def utf16DecodeRune (r1 r2 : Nat) : Nat :=
  if 0xD800 ≤ r1 ∧ r1 < 0xDC00 ∧ 0xDC00 ≤ r2 ∧ r2 < 0xE000 then
    (r1 - 0xD800) * 1024 + (r2 - 0xDC00) + 0x10000
  else 0xFFFD

/-- Puts `pre` before the decoded part of a result. -/
def emit (pre : GoString) (r : Option (GoString × GoString)) : Option (GoString × GoString) :=
  r.map (fun p => (pre ++ p.1, p.2))

/-- The body of a string literal, read from just after the opening quote up to the closing
quote: the decoded bytes and the input left. The escapes accepted are those of the scanner;
the bytes produced are those of `unquoteBytes` (a `\u` escape or a byte sequence that is not
valid UTF-8 yields U+FFFD). -/
def unquoteLoop : Nat → GoString → Option (GoString × GoString)
  | 0, _ => none
  | fuel + 1, s =>
    match s with
    | [] => none
    | c :: t =>
      if c = 0x22 then some ([], t)
      else if c = 0x5C then
        match t with
        | [] => none
        | e :: t1 =>
          if e = 0x22 ∨ e = 0x5C ∨ e = 0x2F then emit [e] (unquoteLoop fuel t1)
          else if e = 0x62 then emit [0x08] (unquoteLoop fuel t1)
          else if e = 0x66 then emit [0x0C] (unquoteLoop fuel t1)
          else if e = 0x6E then emit [0x0A] (unquoteLoop fuel t1)
          else if e = 0x72 then emit [0x0D] (unquoteLoop fuel t1)
          else if e = 0x74 then emit [0x09] (unquoteLoop fuel t1)
          else if e = 0x75 then
            match getu4 s with
            | none => none
            | some rr =>
              if 0xD800 ≤ rr ∧ rr < 0xE000 then
                match getu4 (s.drop 6) with
                | some rr1 =>
                  if utf16DecodeRune rr rr1 ≠ 0xFFFD then
                    emit (EncodeRune (utf16DecodeRune rr rr1)) (unquoteLoop fuel (s.drop 12))
                  else emit (EncodeRune 0xFFFD) (unquoteLoop fuel (s.drop 6))
                | none => emit (EncodeRune 0xFFFD) (unquoteLoop fuel (s.drop 6))
              else emit (EncodeRune rr) (unquoteLoop fuel (s.drop 6))
          else none
      else if c < 0x20 then none
      else if c < 0x80 then emit [c] (unquoteLoop fuel t)
      else
        let (rr, size) := DecodeRuneInString s
        emit (EncodeRune rr) (unquoteLoop fuel (s.drop size))

/-- A JSON string literal at the head of the input: its value and the input left. -/
def decodeString (inp : GoString) : Option (GoString × GoString) :=
  match inp with
  | [] => none
  | c :: t => if c = 0x22 then unquoteLoop t.length t else none

/-- The elements of an array after the first: `,` and an element, until `]`. -/
def decodeElems {α : Type} (dec : GoString → Option (α × GoString)) :
    Nat → GoString → Option (List α × GoString)
  | 0, _ => none
  | fuel + 1, inp =>
    match skipWS inp with
    | [] => none
    | c :: t =>
      if c = 0x5D then some ([], t)
      else if c = 0x2C then
        match dec (skipWS t) with
        | none => none
        | some (x, r) => (decodeElems dec fuel r).map (fun p => (x :: p.1, p.2))
      else none

/-- A slice value: `null` is the nil slice, `[]` an empty non-nil slice. -/
def decodeSlice {α : Type} (dec : GoString → Option (α × GoString)) (inp : GoString) :
    Option (Slice α × GoString) :=
  if inp.take 4 = ascii "null" then some (none, inp.drop 4)
  else
    match inp with
    | [] => none
    | c :: t =>
      if c = 0x5B then
        match skipWS t with
        | [] => none
        | d :: t1 =>
          if d = 0x5D then some (some [], t1)
          else
            match dec (d :: t1) with
            | none => none
            | some (x, r) => (decodeElems dec r.length r).map (fun p => (some (x :: p.1), p.2))
      else none

/-- The members of an object, from the first name on: each value is stored in the field whose
`json` tag is the member's name; a repeated name overwrites. -/
def decodeMembers : Nat → Quote → GoString → Option (Quote × GoString)
  | 0, _, _ => none
  | fuel + 1, q, inp =>
    match decodeString inp with
    | none => none
    | some (key, r1) =>
      match skipWS r1 with
      | [] => none
      | c :: r2 =>
        if c = 0x3A then
          let field : Option (Quote × GoString) :=
            if key = ascii "quote" then
              (decodeString (skipWS r2)).map (fun p => ({ q with Text := p.1 }, p.2))
            else if key = ascii "author" then
              (decodeString (skipWS r2)).map (fun p => ({ q with Author := p.1 }, p.2))
            else if key = ascii "tags" then
              (decodeSlice decodeString (skipWS r2)).map (fun p => ({ q with Tags := p.1 }, p.2))
            else none
          match field with
          | none => none
          | some (q1, r3) =>
            match skipWS r3 with
            | [] => none
            | d :: r4 =>
              if d = 0x2C then decodeMembers fuel q1 (skipWS r4)
              else if d = 0x7D then some (q1, r4)
              else none
        else none

/-- An object decoded into a `Quote` whose fields start at their zero values. -/
def decodeQuote (inp : GoString) : Option (Quote × GoString) :=
  match inp with
  | [] => none
  | c :: t =>
    if c = 0x7B then
      match skipWS t with
      | [] => none
      | d :: t1 =>
        if d = 0x7D then some (⟨[], [], none⟩, t1)
        else decodeMembers t.length ⟨[], [], none⟩ (d :: t1)
    else none

/-- The call `json.Unmarshal(data, &quotes)` with `quotes` a nil `[]Quote`: the decoded slice,
or `none` when the text is rejected. -/
def Unmarshal (data : GoString) : Option (Slice Quote) :=
  match decodeSlice decodeQuote (skipWS data) with
  | none => none
  | some (quotes, rest) => if skipWS rest = [] then some quotes else none

/-! ## UTF-8 text and what the encoder writes for it -/

/-- A Unicode scalar value: a code point outside the surrogate range. -/
def IsScalar (r : Nat) : Prop := r < 0xD800 ∨ (0xDFFF < r ∧ r < 0x110000)

/-- What `appendString` writes for one scalar value of a valid string. -/
def escRune (r : Nat) : GoString :=
  if r < 0x80 then (if htmlSafeSet r then [r] else escapeByte r)
  else if r = 0x2028 ∨ r = 0x2029 then ascii "\\u202" ++ [hex (r % 16)]
  else EncodeRune r

/-- A byte string that is UTF-8 text: the encoding of a sequence of scalar values. -/
def ValidUTF8 (s : GoString) : Prop := ∃ cs : List Char, s = utf8 cs

/-- A record whose strings are all UTF-8 text. -/
def Quote.Valid (q : Quote) : Prop :=
  ValidUTF8 q.Text ∧ ValidUTF8 q.Author ∧ ∀ t ∈ elems q.Tags, ValidUTF8 t

/-- The text of a value that opens with a double quote or a brace. -/
def StartsValue (s : GoString) : Prop := ∃ b t, s = b :: t ∧ (b = 0x22 ∨ b = 0x7B)

/-! ## JSON texts

The grammar of JSON objects and arrays without insignificant whitespace, against which the
output of the struct and slice encoders is compared. -/

/-- The JSON text of an object: the members `"name":value`, separated by commas, in braces. -/
def jsonObject (members : List (String × GoString)) : GoString :=
  [0x7B] ++ List.intercalate [0x2C]
    (members.map (fun m => [0x22] ++ ascii m.1 ++ [0x22, 0x3A] ++ m.2)) ++ [0x7D]

/-- The JSON text of an array: the items, separated by commas, in brackets. -/
def jsonArray (items : List GoString) : GoString :=
  [0x5B] ++ List.intercalate [0x2C] items ++ [0x5D]

/-! ## Fixtures -/

/-- An element with a `class` attribute. -/
def classed (tag cls : String) (children : List Node) : Node :=
  .element (ascii tag) [(ascii "class", ascii cls)] children

/-- A tag link `<a class="tag" href=...>label</a>`. -/
def tagLink (href label : String) : Node :=
  .element (ascii "a") [(ascii "class", ascii "tag"), (ascii "href", ascii href)]
    [.text (ascii label)]

/-- A quote container in the markup of quotes.toscrape.com. -/
def quoteDiv (text author : String) (links : List Node) : Node :=
  classed "div" "quote"
    [classed "span" "text" [.text (ascii text)],
     .element (ascii "span") [] [.text (ascii "by "), classed "small" "author" [.text (ascii author)]],
     classed "div" "tags" links]

/-- A document whose body holds the given nodes. -/
def pageOf (body : List Node) : Node :=
  .document [.doctype (ascii "html"), .element (ascii "html") [] [.element (ascii "body") [] body]]

/-- The container of the end-to-end scenario: two tag links. -/
def scenarioQuote : Node :=
  quoteDiv "Test quote." "Jane Doe"
    [tagLink "/tag/wisdom/page/1/" "wisdom", tagLink "/tag/life/page/1/" "life"]

/-- The page of the end-to-end scenario: the one container. -/
def scenarioPage : Node := pageOf [scenarioQuote]

/-- The container of the scenario page with its ancestors: `body`, `html`, the document. -/
def scenarioLoc : Loc :=
  { anc := [.element (ascii "body") [] [scenarioQuote],
            .element (ascii "html") [] [.element (ascii "body") [] [scenarioQuote]],
            scenarioPage],
    node := scenarioQuote }

/-- A page with 101 containers. -/
def longPage : Node := pageOf (List.replicate 101 (quoteDiv "Q" "A" [tagLink "/t/" "t"]))

/-- A page whose container has an empty `.tags` block. -/
def noTagsPage : Node := pageOf [quoteDiv "Q" "A" []]

/-- A page whose container has two elements matching `.tags a.tag`: the first without an
`href` attribute, the second with blanks around the value of its `href`. -/
def oddLinksPage : Node :=
  pageOf [quoteDiv "Q" "A"
    [.element (ascii "a") [(ascii "class", ascii "tag")] [.text (ascii "orphan")],
     tagLink " /tag/x/ " "x"]]

/-- A page whose container has two elements matching `.text` and two matching `.author`. -/
def twoTextsPage : Node :=
  pageOf [classed "div" "quote"
    [classed "span" "text" [.text (ascii "First.")],
     classed "span" "text" [.text (ascii "Second.")],
     classed "small" "author" [.text (ascii "Ann")],
     classed "small" "author" [.text (ascii "Bob")]]]

/-- A response writer nothing was written to. -/
def freshWriter : ResponseWriter := { header := [], body := [] }

/-! ## Scraping: one record per container -/

theorem foldl_append_some {α β : Type} (g : β → α) (l : List β) (acc : List α) :
    l.foldl (fun st x => append st (g x)) (some acc) = some (acc ++ l.map g) := by
  induction l generalizing acc with
  | nil => simp
  | cons x xs ih =>
    have hx : append (some acc) (g x) = some (acc ++ [g x]) := rfl
    simp only [List.foldl_cons, hx, ih, List.map_cons, List.append_assoc, List.singleton_append]

/-- On a page, `ScrapeQuotes` returns the non-nil slice of the records built from the nodes of
`doc.Find(".quote")`, in order. -/
theorem scrape_page (doc : Node) :
    ScrapeQuotes (.page doc) = .done (some ((Find ⟨[], doc⟩ selQuote).map (fun c =>
      ({ Text := HTMLElement.ChildText ⟨c⟩ selText,
         Author := HTMLElement.ChildText ⟨c⟩ selAuthor,
         Tags := HTMLElement.ChildAttrs ⟨c⟩ selTagLinks (ascii "href") } : Quote)))) := by
  have h := foldl_append_some (fun c : Loc =>
      ({ Text := HTMLElement.ChildText ⟨c⟩ selText,
         Author := HTMLElement.ChildText ⟨c⟩ selAuthor,
         Tags := HTMLElement.ChildAttrs ⟨c⟩ selTagLinks (ascii "href") } : Quote))
    (Find ⟨[], doc⟩ selQuote) []
  simp only [List.nil_append] at h
  simp only [ScrapeQuotes, Visit, onQuote, h]

theorem scrape_failed (err : GoString) :
    ScrapeQuotes (.failed err) = .exit 1 (ascii "Failed to scrape: " ++ err) := by
  simp [ScrapeQuotes, Visit]

theorem scrape_done_some (fetch : Fetch) (quotes : Slice Quote)
    (h : ScrapeQuotes fetch = .done quotes) : ∃ l, quotes = some l := by
  cases fetch with
  | failed err => rw [scrape_failed] at h; cases h
  | page doc => rw [scrape_page] at h; cases h; exact ⟨_, rfl⟩

theorem limitQuotes_some (l : List Quote) :
    limitQuotes (some l) = some (l.take (min l.length 100)) := by
  unfold limitQuotes
  by_cases h : l.length > 100
  · have hm : min l.length 100 = 100 := by omega
    simp [len, sliceTo, h, hm]
  · have hm : min l.length 100 = l.length := by omega
    simp [len, h, hm]

theorem handle_done (fetch : Fetch) (w : ResponseWriter) (quotes : Slice Quote)
    (h : ScrapeQuotes fetch = .done quotes) :
    HandleQuotes fetch w
      = (Encode (w.SetHeader "Content-Type" "application/json") (limitQuotes quotes), .done ()) := by
  simp [HandleQuotes, h]

/-- The loop of `ChildAttrs`, from any accumulated slice. -/
theorem foldl_attrs (a : GoString) (l : List Loc) (acc : Slice GoString) :
    l.foldl (fun res s =>
        match Attr s a with
        | some attr => append res (TrimSpace attr)
        | none => res) acc
      = match acc, l.filterMap (fun s => (Attr s a).map TrimSpace) with
        | some r, ys => some (r ++ ys)
        | none, [] => none
        | none, y :: ys => some (y :: ys) := by
  induction l generalizing acc with
  | nil => cases acc <;> simp
  | cons x xs ih =>
    rw [List.foldl_cons, ih]
    cases hx : Attr x a with
    | none => simp [hx]
    | some v => cases acc <;> simp [hx, append]

/-- Colly `ChildAttrs` in closed form: the stripped values of the attribute on the matching
elements that carry it; nil when there is none. -/
theorem childAttrs_eq (h : HTMLElement) (m : Sel) (a : GoString) :
    h.ChildAttrs m a
      = match (Find h.DOM m).filterMap (fun s => (Attr s a).map TrimSpace) with
        | [] => none
        | y :: ys => some (y :: ys) := by
  unfold HTMLElement.ChildAttrs
  rw [foldl_attrs]
  cases (Find h.DOM m).filterMap (fun s => (Attr s a).map TrimSpace) <;> rfl

theorem childAttrs_elems (h : HTMLElement) (m : Sel) (a : GoString) :
    elems (h.ChildAttrs m a) = (Find h.DOM m).filterMap (fun s => (Attr s a).map TrimSpace) := by
  rw [childAttrs_eq]
  cases (Find h.DOM m).filterMap (fun s => (Attr s a).map TrimSpace) <;> rfl

/-! ## Claims on the handler and the scraper -/

/-- C1: whatever sequence `ScrapeQuotes` returns, with `N` records, `HandleQuotes` serializes
exactly its first `min N 100` records in their order: all of them when `N ≤ 100`, and the first
100, no more, when `N > 100`. -/
theorem C1_serializes_first_100 (fetch : Fetch) (w : ResponseWriter) (quotes : Slice Quote)
    (h : ScrapeQuotes fetch = .done quotes) :
    HandleQuotes fetch w
        = (Encode (w.SetHeader "Content-Type" "application/json")
            (some ((elems quotes).take (min (len quotes) 100))), .done ())
      ∧ (len quotes ≤ 100 → (elems quotes).take (min (len quotes) 100) = elems quotes)
      ∧ (100 < len quotes →
          (elems quotes).take (min (len quotes) 100) = (elems quotes).take 100
            ∧ ((elems quotes).take (min (len quotes) 100)).length = 100) := by
  obtain ⟨l, rfl⟩ := scrape_done_some fetch quotes h
  refine ⟨?_, ?_, ?_⟩
  · rw [handle_done fetch w _ h, limitQuotes_some]; rfl
  · intro hle
    have hm : min (len (some l)) 100 = l.length := by simp only [len] at hle ⊢; omega
    simp [hm, elems]
  · intro hgt
    have hm : min (len (some l)) 100 = 100 := by simp only [len] at hgt ⊢; omega
    simp only [len] at hgt
    simp only [hm, elems, List.length_take, true_and]
    omega

set_option maxRecDepth 20000 in
/-- C1 at a page with 101 containers: the hypothesis holds and 100 records are serialized. -/
theorem C1_serializes_first_100_witness :
    ScrapeQuotes (.page longPage)
        = .done (some (List.replicate 101 ⟨ascii "Q", ascii "A", some [ascii "/t/"]⟩))
      ∧ (HandleQuotes (.page longPage) freshWriter).1.body
        = marshal (some (List.replicate 100 ⟨ascii "Q", ascii "A", some [ascii "/t/"]⟩)) ++ [0x0A] := by
  have hs : ScrapeQuotes (.page longPage)
      = .done (some (List.replicate 101 ⟨ascii "Q", ascii "A", some [ascii "/t/"]⟩)) := by
    decide
  refine ⟨hs, ?_⟩
  rw [(C1_serializes_first_100 (.page longPage) freshWriter _ hs).1]
  rfl

/-- C5: on a page with no element matching `.quote`, `ScrapeQuotes` returns the empty non-nil
slice and `HandleQuotes` writes the empty JSON array `[]` (followed by the newline that ends
every `Encode`), not `null`, and the call returns. -/
theorem C5_no_container_empty_array (doc : Node) (w : ResponseWriter)
    (h : Find ⟨[], doc⟩ selQuote = []) :
    ScrapeQuotes (.page doc) = .done (some [])
      ∧ HandleQuotes (.page doc) w
        = ((w.SetHeader "Content-Type" "application/json").Write (ascii "[]" ++ [0x0A]), .done ())
      ∧ marshal (some []) = ascii "[]"
      ∧ marshal (some []) ≠ ascii "null" := by
  have hs : ScrapeQuotes (.page doc) = .done (some []) := by rw [scrape_page, h]; rfl
  refine ⟨hs, ?_, by decide, by decide⟩
  rw [handle_done _ w _ hs]
  rfl

/-- C5 at a page whose body holds one paragraph and no container. -/
theorem C5_no_container_empty_array_witness :
    Find ⟨[], pageOf [classed "p" "intro" [.text (ascii "nothing here")]]⟩ selQuote = []
      ∧ (HandleQuotes (.page (pageOf [classed "p" "intro" [.text (ascii "nothing here")]]))
          freshWriter).1.body = ascii "[]\n" := by
  have hf : Find ⟨[], pageOf [classed "p" "intro" [.text (ascii "nothing here")]]⟩ selQuote = [] := by
    rfl
  refine ⟨hf, ?_⟩
  rw [(C5_no_container_empty_array _ freshWriter hf).2.1]
  rfl

/-- C6: on a fetched page `ScrapeQuotes` returns one record per element matching `.quote`: the
result is the image, in document order, of the list of matched containers under the record
construction of the callback, and has its length. -/
theorem C6_one_record_per_container (doc : Node) :
    ∃ qs : List Quote,
      ScrapeQuotes (.page doc) = .done (some qs)
        ∧ qs.length = (Find ⟨[], doc⟩ selQuote).length
        ∧ qs = (Find ⟨[], doc⟩ selQuote).map (fun c =>
            ({ Text := HTMLElement.ChildText ⟨c⟩ selText,
               Author := HTMLElement.ChildText ⟨c⟩ selAuthor,
               Tags := HTMLElement.ChildAttrs ⟨c⟩ selTagLinks (ascii "href") } : Quote)) :=
  ⟨_, scrape_page doc, by simp, rfl⟩

/-- C8: when the visit reports an error, `ScrapeQuotes` returns no sequence: the process exits
with status 1 after logging the diagnostic, and `HandleQuotes` leaves the response writer as it
found it (no header set, no byte written). -/
theorem C8_fetch_failure_is_fatal (err : GoString) (w : ResponseWriter) :
    ScrapeQuotes (.failed err) = .exit 1 (ascii "Failed to scrape: " ++ err)
      ∧ (∀ quotes, ScrapeQuotes (.failed err) ≠ .done quotes)
      ∧ HandleQuotes (.failed err) w = (w, .exit 1 (ascii "Failed to scrape: " ++ err)) := by
  refine ⟨scrape_failed err, ?_, ?_⟩
  · intro quotes hq; rw [scrape_failed] at hq; cases hq
  · simp [HandleQuotes, scrape_failed]

/-- C2, at a page whose container has no descendant matching `.tags a.tag`: `ChildAttrs`
returns the nil slice and the response body carries `"tags":null`, not `"tags":[]`. -/
theorem C2_no_tag_links_encodes_null :
    (Find ⟨[], noTagsPage⟩ selQuote).map (fun c => (Find c selTagLinks).length) = [0]
      ∧ ScrapeQuotes (.page noTagsPage) = .done (some [⟨ascii "Q", ascii "A", none⟩])
      ∧ (HandleQuotes (.page noTagsPage) freshWriter).1.body
          = ascii "[\x7b\"quote\":\"Q\",\"author\":\"A\",\"tags\":null\x7d]\n"
      ∧ (HandleQuotes (.page noTagsPage) freshWriter).1.body
          ≠ ascii "[\x7b\"quote\":\"Q\",\"author\":\"A\",\"tags\":[]\x7d]\n" := by
  refine ⟨by rfl, by rfl, by rfl, by decide⟩

theorem arrayElems_succ {α : Type} (enc : α → GoString) (i : Nat) (l : List α) :
    arrayElems enc (i + 1) l = (l.map (fun x => [0x2C] ++ enc x)).flatten := by
  induction l generalizing i with
  | nil => rfl
  | cons x xs ih => simp [arrayElems, ih]

theorem arrayElems_zero {α : Type} (enc : α → GoString) (l : List α) :
    arrayElems enc 0 l = List.intercalate [0x2C] (l.map enc) := by
  cases l with
  | nil => rfl
  | cons x xs =>
    simp only [arrayElems, Nat.lt_irrefl, if_false, List.nil_append, Nat.zero_add, List.map_cons,
      arrayElems_succ]
    induction xs generalizing x with
    | nil => simp [List.intercalate]
    | cons y ys ih =>
      have := ih y
      simp only [List.intercalate, List.map_cons, List.flatten_cons, List.intersperse_cons₂,
        List.append_assoc] at this ⊢
      rw [this]

/-- The object emitted for a record with a non-nil `Tags`: exactly the three members `quote`,
`author` and `tags`, carrying `Text`, `Author` and the array of the tags as JSON strings. -/
theorem encodeQuote_of_tags (text author : GoString) (tags : List GoString) :
    encodeQuote ⟨text, author, some tags⟩
      = jsonObject [("quote", appendString text), ("author", appendString author),
          ("tags", jsonArray (tags.map appendString))] := by
  simp [encodeQuote, encodeSlice, jsonObject, jsonArray, arrayElems_zero, List.intercalate, ascii]

/-- C3, at the record scraped from a container without tag links (`Tags` nil): the emitted
object has the three members, but the member `tags` is `null`, not a JSON array. -/
theorem C3_nil_tags_member_is_null :
    ScrapeQuotes (.page noTagsPage) = .done (some [⟨ascii "Q", ascii "A", none⟩])
      ∧ encodeQuote ⟨ascii "Q", ascii "A", none⟩
          = jsonObject [("quote", appendString (ascii "Q")), ("author", appendString (ascii "A")),
              ("tags", ascii "null")]
      ∧ encodeQuote ⟨ascii "Q", ascii "A", none⟩
          ≠ jsonObject [("quote", appendString (ascii "Q")), ("author", appendString (ascii "A")),
              ("tags", jsonArray ([].map appendString))] := by
  refine ⟨by rfl, by rfl, by decide⟩

/-- C4 as stated fails at the scenario page: the body written by `HandleQuotes` is not the
bare JSON text, since a newline byte follows it. -/
theorem C4_body_has_trailing_newline :
    (HandleQuotes (.page scenarioPage) freshWriter).1.body
        ≠ ascii ("[\x7b\"quote\":\"Test quote.\",\"author\":\"Jane Doe\","
            ++ "\"tags\":[\"/tag/wisdom/page/1/\",\"/tag/life/page/1/\"]\x7d]")
      ∧ (HandleQuotes (.page scenarioPage) freshWriter).1.body
        = ascii ("[\x7b\"quote\":\"Test quote.\",\"author\":\"Jane Doe\","
            ++ "\"tags\":[\"/tag/wisdom/page/1/\",\"/tag/life/page/1/\"]\x7d]") ++ [0x0A] := by
  refine ⟨by decide, by rfl⟩

/-- C4, amended: for a page with exactly one `.quote` container whose text is "Test quote.",
whose author is "Jane Doe" and whose two tag links have the two `href` values, `HandleQuotes`
adds to the body exactly the JSON text of the scenario followed by one newline byte, sets the
header `Content-Type` to `application/json`, and returns. -/
theorem C4_scenario_body_then_newline (doc : Node) (w : ResponseWriter) (c : Loc)
    (hc : Find ⟨[], doc⟩ selQuote = [c])
    (ht : Text (Find c selText) = ascii "Test quote.")
    (ha : Text (Find c selAuthor) = ascii "Jane Doe")
    (hl : (Find c selTagLinks).map (fun s => Attr s (ascii "href"))
      = [some (ascii "/tag/wisdom/page/1/"), some (ascii "/tag/life/page/1/")]) :
    (HandleQuotes (.page doc) w).1.body
        = w.body ++ ascii ("[\x7b\"quote\":\"Test quote.\",\"author\":\"Jane Doe\","
            ++ "\"tags\":[\"/tag/wisdom/page/1/\",\"/tag/life/page/1/\"]\x7d]") ++ [0x0A]
      ∧ (HandleQuotes (.page doc) w).1.GetHeader "Content-Type" = "application/json"
      ∧ (HandleQuotes (.page doc) w).2 = .done () := by
  have htags : HTMLElement.ChildAttrs ⟨c⟩ selTagLinks (ascii "href")
      = some [ascii "/tag/wisdom/page/1/", ascii "/tag/life/page/1/"] := by
    rw [childAttrs_eq]
    have hfm : (Find c selTagLinks).filterMap (fun s => (Attr s (ascii "href")).map TrimSpace)
        = ((Find c selTagLinks).map (fun s => Attr s (ascii "href"))).filterMap
            (fun o => o.map TrimSpace) := by
      rw [List.filterMap_map]; rfl
    rw [hfm, hl]
    rfl
  have hs : ScrapeQuotes (.page doc) = .done (some [⟨ascii "Test quote.", ascii "Jane Doe",
      some [ascii "/tag/wisdom/page/1/", ascii "/tag/life/page/1/"]⟩]) := by
    rw [scrape_page, hc]
    simp only [List.map_cons, List.map_nil, HTMLElement.ChildText, ht, ha, htags]
    rfl
  rw [handle_done _ w _ hs]
  refine ⟨?_, ?_, rfl⟩
  · show w.body ++ (marshal (limitQuotes _) ++ [0x0A]) = _
    rw [List.append_assoc]
    rfl
  · simp [Encode, ResponseWriter.Write, ResponseWriter.SetHeader, ResponseWriter.GetHeader]

/-- C4, amended, at the scenario page and a fresh response writer. -/
theorem C4_scenario_body_then_newline_witness :
    Find ⟨[], scenarioPage⟩ selQuote = [scenarioLoc]
      ∧ (HandleQuotes (.page scenarioPage) freshWriter).1.body
        = freshWriter.body ++ ascii ("[\x7b\"quote\":\"Test quote.\",\"author\":\"Jane Doe\","
            ++ "\"tags\":[\"/tag/wisdom/page/1/\",\"/tag/life/page/1/\"]\x7d]") ++ [0x0A]
      ∧ (HandleQuotes (.page scenarioPage) freshWriter).1.GetHeader "Content-Type"
        = "application/json" :=
  have hc : Find ⟨[], scenarioPage⟩ selQuote = [scenarioLoc] := by rfl
  have h := C4_scenario_body_then_newline scenarioPage freshWriter scenarioLoc hc
    (by rfl) (by rfl) (by rfl)
  ⟨hc, h.1, h.2.1⟩

/-- C7 as stated fails at a page whose container has two elements matching `.tags a.tag`, one
without `href` and one whose `href` value is " /tag/x/ ": the record has one tag, not one per
matched element, and the tag is the value stripped of its blanks. -/
theorem C7_tags_skip_and_strip :
    (Find ⟨[], oddLinksPage⟩ selQuote).map
        (fun c => (Find c selTagLinks).map (fun s => Attr s (ascii "href")))
        = [[none, some (ascii " /tag/x/ ")]]
      ∧ ScrapeQuotes (.page oddLinksPage)
        = .done (some [⟨ascii "Q", ascii "A", some [ascii "/tag/x/"]⟩]) := by
  refine ⟨by rfl, by rfl⟩

/-- C7, amended: for every matched `.quote` container, the entries of the record's `Tags` are
the `href` attribute values (not the link text), each stripped of leading and trailing white
space, of the descendants matching `.tags a.tag` that carry an `href` attribute, one entry per
such element, in the document order of those elements. -/
theorem C7_tags_are_stripped_hrefs (doc : Node) :
    ∃ qs : List Quote,
      ScrapeQuotes (.page doc) = .done (some qs)
        ∧ List.Forall₂
            (fun (c : Loc) (q : Quote) =>
              elems q.Tags
                = (Find c selTagLinks).filterMap
                    (fun s => (Attr s (ascii "href")).map TrimSpace))
            (Find ⟨[], doc⟩ selQuote) qs := by
  refine ⟨_, scrape_page doc, ?_⟩
  rw [List.forall₂_map_right_iff, List.forall₂_same]
  intro c _
  exact childAttrs_elems ⟨c⟩ selTagLinks (ascii "href")

/-- C10 as stated fails at a page whose container has two elements matching `.text` ("First."
and "Second.") and two matching `.author` ("Ann" and "Bob"): `Text` and `Author` are the
concatenations, not the content of the first match. -/
theorem C10_text_concatenates_matches :
    (Find ⟨[], twoTextsPage⟩ selQuote).map
        (fun c => ((Find c selText).map (fun s => nodeText s.node),
          (Find c selAuthor).map (fun s => nodeText s.node)))
        = [([ascii "First.", ascii "Second."], [ascii "Ann", ascii "Bob"])]
      ∧ ScrapeQuotes (.page twoTextsPage)
        = .done (some [⟨ascii "First.Second.", ascii "AnnBob", none⟩]) := by
  refine ⟨by rfl, by rfl⟩

/-- C10, amended: for every matched `.quote` container, `Text` is the concatenation, in document
order, of the text contents of all descendants matching `.text`, stripped of leading and
trailing white space, and `Author` likewise for `.author`; each is the empty string when no
descendant matches. -/
theorem C10_text_is_stripped_concatenation (doc : Node) :
    ∃ qs : List Quote,
      ScrapeQuotes (.page doc) = .done (some qs)
        ∧ List.Forall₂
            (fun (c : Loc) (q : Quote) =>
              q.Text = TrimSpace ((Find c selText).flatMap (fun s => nodeText s.node))
                ∧ q.Author = TrimSpace ((Find c selAuthor).flatMap (fun s => nodeText s.node))
                ∧ (Find c selText = [] → q.Text = [])
                ∧ (Find c selAuthor = [] → q.Author = []))
            (Find ⟨[], doc⟩ selQuote) qs := by
  refine ⟨_, scrape_page doc, ?_⟩
  rw [List.forall₂_map_right_iff, List.forall₂_same]
  intro c _
  refine ⟨rfl, rfl, ?_, ?_⟩
  · intro h; simp only [HTMLElement.ChildText, h]; rfl
  · intro h; simp only [HTMLElement.ChildText, h]; rfl

/-! ## UTF-8: decoding an encoded scalar value -/

theorem char_isScalar (c : Char) : IsScalar c.toNat := c.valid

theorem decode_two (s0 s1 : Nat) (rest : GoString) (h0 : 0xC2 ≤ s0) (h0' : s0 < 0xE0)
    (h1 : 0x80 ≤ s1) (h1' : s1 ≤ 0xBF) :
    DecodeRuneInString (s0 :: s1 :: rest) = ((s0 % 32) * 64 + s1 % 64, 2) := by
  have a1 : ¬ s0 < 0x80 := by omega
  have a2 : ¬ (s0 < 0xC2 ∨ 0xF4 < s0) := by omega
  have a3 : ¬ s0 = 0xE0 := by omega
  have a4 : ¬ s0 = 0xF0 := by omega
  have a5 : ¬ s0 = 0xED := by omega
  have a6 : ¬ s0 = 0xF4 := by omega
  have a7 : ¬ (s1 < 0x80 ∨ 0xBF < s1) := by omega
  simp only [DecodeRuneInString, a1, a2, a3, a4, a5, a6, a7, h0', if_true, if_false,
    List.length_cons]
  simp

theorem decode_three (s0 s1 s2 : Nat) (rest : GoString) (h0 : 0xE0 ≤ s0) (h0' : s0 < 0xF0)
    (h1 : (if s0 = 0xE0 then 0xA0 else 0x80) ≤ s1) (h1' : s1 ≤ (if s0 = 0xED then 0x9F else 0xBF))
    (h2 : 0x80 ≤ s2) (h2' : s2 ≤ 0xBF) :
    DecodeRuneInString (s0 :: s1 :: s2 :: rest)
      = ((s0 % 16) * 4096 + (s1 % 64) * 64 + s2 % 64, 3) := by
  have a1 : ¬ s0 < 0x80 := by omega
  have a2 : ¬ (s0 < 0xC2 ∨ 0xF4 < s0) := by omega
  have a3 : ¬ s0 < 0xE0 := by omega
  have a4 : ¬ s0 = 0xF0 := by omega
  have a6 : ¬ s0 = 0xF4 := by omega
  have a8 : ¬ (s2 < 0x80 ∨ 0xBF < s2) := by omega
  have a7 : ¬ (s1 < (if s0 = 0xE0 then 0xA0 else 0x80) ∨ (if s0 = 0xED then 0x9F else 0xBF) < s1) := by
    omega
  simp only [DecodeRuneInString, a1, a2, a3, a4, a6, a7, a8, h0', if_true, if_false,
    List.length_cons]
  simp

theorem decode_four (s0 s1 s2 s3 : Nat) (rest : GoString) (h0 : 0xF0 ≤ s0) (h0' : s0 ≤ 0xF4)
    (h1 : (if s0 = 0xF0 then 0x90 else 0x80) ≤ s1) (h1' : s1 ≤ (if s0 = 0xF4 then 0x8F else 0xBF))
    (h2 : 0x80 ≤ s2) (h2' : s2 ≤ 0xBF) (h3 : 0x80 ≤ s3) (h3' : s3 ≤ 0xBF) :
    DecodeRuneInString (s0 :: s1 :: s2 :: s3 :: rest)
      = ((s0 % 8) * 262144 + (s1 % 64) * 4096 + (s2 % 64) * 64 + s3 % 64, 4) := by
  have a1 : ¬ s0 < 0x80 := by omega
  have a2 : ¬ (s0 < 0xC2 ∨ 0xF4 < s0) := by omega
  have a3 : ¬ s0 < 0xE0 := by omega
  have a4 : ¬ s0 < 0xF0 := by omega
  have a5 : ¬ s0 = 0xE0 := by omega
  have a6 : ¬ s0 = 0xED := by omega
  have a8 : ¬ (s2 < 0x80 ∨ 0xBF < s2) := by omega
  have a9 : ¬ (s3 < 0x80 ∨ 0xBF < s3) := by omega
  have a7 : ¬ (s1 < (if s0 = 0xF0 then 0x90 else 0x80) ∨ (if s0 = 0xF4 then 0x8F else 0xBF) < s1) := by
    omega
  simp only [DecodeRuneInString, a1, a2, a3, a4, a5, a6, a7, a8, a9, if_true, if_false,
    List.length_cons]
  simp

/-- Decoding the encoding of a scalar value gives the value back, with the width of the
encoding, whatever follows. -/
theorem decode_encode (r : Nat) (h : IsScalar r) (rest : GoString) :
    DecodeRuneInString (EncodeRune r ++ rest) = (r, (EncodeRune r).length) := by
  unfold IsScalar at h
  by_cases h1 : r ≤ 0x7F
  · have : r < 0x80 := by omega
    simp [EncodeRune, h1, DecodeRuneInString, this]
  · by_cases h2 : r ≤ 0x7FF
    · simp only [EncodeRune, h1, h2, if_false, if_true, List.cons_append, List.nil_append,
        List.length_cons, List.length_nil]
      rw [decode_two _ _ _ (by omega) (by omega) (by omega) (by omega)]
      simp only [Prod.mk.injEq, and_true]
      omega
    · have h3 : ¬ (0x10FFFF < r ∨ (0xD800 ≤ r ∧ r ≤ 0xDFFF)) := by omega
      by_cases h4 : r ≤ 0xFFFF
      · simp only [EncodeRune, h1, h2, h3, h4, if_false, if_true, List.cons_append,
          List.nil_append, List.length_cons, List.length_nil]
        rw [decode_three _ _ _ _ (by omega) (by omega) (by split <;> omega) (by split <;> omega)
          (by omega) (by omega)]
        simp only [Prod.mk.injEq, and_true]
        omega
      · simp only [EncodeRune, h1, h2, h3, h4, if_false, if_true, List.cons_append,
          List.nil_append, List.length_cons, List.length_nil]
        rw [decode_four _ _ _ _ _ (by omega) (by omega) (by split <;> omega) (by split <;> omega)
          (by omega) (by omega) (by omega) (by omega)]
        simp only [Prod.mk.injEq, and_true]
        omega

/-- The decoder looks at no more than the first four bytes. -/
theorem decode_take_four (s : GoString) :
    DecodeRuneInString (s.take 4) = DecodeRuneInString s := by
  match s with
  | [] => rfl
  | [_] => rfl
  | [_, _] => rfl
  | [_, _, _] => rfl
  | s0 :: s1 :: s2 :: s3 :: rest =>
    have a2 : ¬ (rest.length + 1 + 1 + 1 + 1 < 2) := by omega
    have a3 : ¬ (rest.length + 1 + 1 + 1 + 1 < 3) := by omega
    have a4 : ¬ (rest.length + 1 + 1 + 1 + 1 < 4) := by omega
    by_cases hE : s0 < 0xE0
    · simp [List.take, DecodeRuneInString, hE, a2]
    · by_cases hF : s0 < 0xF0
      · simp [List.take, DecodeRuneInString, hE, hF, a3]
      · simp [List.take, DecodeRuneInString, hE, hF, a4]

theorem encodeRune_length_pos (r : Nat) : 0 < (EncodeRune r).length := by
  unfold EncodeRune
  split_ifs <;> simp

/-- The encoding of a rune above U+007F starts with a byte above `0x7F` and is at least two
bytes long. -/
theorem encodeRune_head (r : Nat) (h : ¬ r < 0x80) :
    ∃ b t, EncodeRune r = b :: t ∧ 0x80 ≤ b ∧ 2 ≤ (EncodeRune r).length := by
  unfold EncodeRune
  split_ifs
  · omega
  · exact ⟨_, _, rfl, by omega, by simp⟩
  · exact ⟨_, _, rfl, by omega, by simp⟩
  · exact ⟨_, _, rfl, by omega, by simp⟩
  · exact ⟨_, _, rfl, by omega, by simp⟩

/-! ## The string encoder on UTF-8 text -/

theorem utf8_cons (c : Char) (cs : List Char) :
    utf8 (c :: cs) = EncodeRune c.toNat ++ utf8 cs := by
  simp [utf8]

theorem appendStringLoop_utf8 (cs : List Char) (fuel : Nat) (h : (utf8 cs).length ≤ fuel) :
    appendStringLoop fuel (utf8 cs) = cs.flatMap (fun c => escRune c.toNat) := by
  induction cs generalizing fuel with
  | nil => cases fuel <;> simp [utf8, appendStringLoop]
  | cons c cs ih =>
    rw [utf8_cons] at h ⊢
    have hpos := encodeRune_length_pos c.toNat
    rw [List.length_append] at h
    obtain ⟨f, rfl⟩ : ∃ f, fuel = f + 1 := ⟨fuel - 1, by omega⟩
    rw [List.flatMap_cons]
    by_cases hr : c.toNat < 0x80
    · have he : EncodeRune c.toNat = [c.toNat] := by
        have : c.toNat ≤ 0x7F := by omega
        simp [EncodeRune, this]
      rw [he] at h ⊢
      have hf : (utf8 cs).length ≤ f := by simp at h; omega
      simp only [List.singleton_append, appendStringLoop, hr, if_true, escRune, ih f hf]
      split <;> simp
    · obtain ⟨b, t, hbt, hb, hlen⟩ := encodeRune_head c.toNat hr
      have hf : (utf8 cs).length ≤ f := by omega
      have hdec : DecodeRuneInString ((b :: (t ++ utf8 cs)).take 4)
          = (c.toNat, (EncodeRune c.toNat).length) := by
        rw [decode_take_four, ← List.cons_append, ← hbt]
        exact decode_encode _ (char_isScalar c) _
      have hb' : ¬ b < 0x80 := by omega
      have hne : ¬ (c.toNat = RuneError ∧ (EncodeRune c.toNat).length = 1) := by omega
      have htake : List.take (EncodeRune c.toNat).length (b :: (t ++ utf8 cs))
          = EncodeRune c.toNat := by
        rw [← List.cons_append, ← hbt]; exact List.take_left' rfl
      have hdrop : List.drop (EncodeRune c.toNat).length (b :: (t ++ utf8 cs)) = utf8 cs := by
        rw [← List.cons_append, ← hbt]; exact List.drop_left' rfl
      rw [hbt, List.cons_append]
      simp only [appendStringLoop, hb', if_false, hdec, hne, htake, hdrop, ih f hf, escRune, hr]
      split <;> simp [hbt]

/-! ## Reading back a string literal -/

theorem hexVal_hex : ∀ k, k < 16 → hexVal (hex k) = some k := by decide

theorem getu4_low (r : Nat) (h : r < 0x100) (tail : GoString) :
    getu4 (0x5C :: 0x75 :: 0x30 :: 0x30 :: hex (r / 16) :: hex (r % 16) :: tail) = some r := by
  have h1 := hexVal_hex (r / 16) (by omega)
  have h2 := hexVal_hex (r % 16) (by omega)
  have h0 : hexVal 0x30 = some 0 := by decide
  simp only [getu4, h0, h1, h2, and_self, if_true]
  congr 1
  omega

theorem escRune_length_pos (r : Nat) : 0 < (escRune r).length := by
  unfold escRune escapeByte
  split_ifs <;> first | exact encodeRune_length_pos r | simp [ascii]

/-- One step of the reader on what the encoder wrote for one scalar value. -/
theorem unquoteLoop_escRune (r : Nat) (hr : IsScalar r) (tail : GoString) (f : Nat) :
    unquoteLoop (f + 1) (escRune r ++ tail) = emit (EncodeRune r) (unquoteLoop f tail) := by
  by_cases h80 : r < 0x80
  · have he : EncodeRune r = [r] := by
      have : r ≤ 0x7F := by omega
      simp [EncodeRune, this]
    by_cases hs : htmlSafeSet r = true
    · simp only [htmlSafeSet, decide_eq_true_eq] at hs
      have c1 : ¬ r = 0x22 := by omega
      have c2 : ¬ r = 0x5C := by omega
      have c3 : ¬ r < 0x20 := by omega
      simp [escRune, h80, htmlSafeSet, hs, unquoteLoop, c1, c2, c3, he]
    · have hs' : htmlSafeSet r = false := by simpa using hs
      simp only [escRune, h80, hs', if_true, Bool.false_eq_true, if_false, he]
      by_cases q1 : r = 0x5C ∨ r = 0x22
      · rcases q1 with q | q <;> subst q <;> simp [escapeByte, unquoteLoop]
      · by_cases q2 : r = 0x08
        · subst q2; simp [escapeByte, unquoteLoop, ascii]
        · by_cases q3 : r = 0x0C
          · subst q3; simp [escapeByte, unquoteLoop, ascii]
          · by_cases q4 : r = 0x0A
            · subst q4; simp [escapeByte, unquoteLoop, ascii]
            · by_cases q5 : r = 0x0D
              · subst q5; simp [escapeByte, unquoteLoop, ascii]
              · by_cases q6 : r = 0x09
                · subst q6; simp [escapeByte, unquoteLoop, ascii]
                · have hg := getu4_low r (by omega) tail
                  have ns : ¬ (0xD800 ≤ r ∧ r < 0xE000) := by omega
                  have ea : ascii "\\u00" = [0x5C, 0x75, 0x30, 0x30] := by decide
                  simp only [escapeByte, q1, q2, q3, q4, q5, q6, if_false, ea, List.cons_append,
                    List.nil_append, unquoteLoop, hg, ns, he, List.drop]
                  simp
  · by_cases hls : r = 0x2028 ∨ r = 0x2029
    · rcases hls with q | q <;> subst q <;>
        simp [escRune, unquoteLoop, ascii, hex, getu4, hexVal, EncodeRune, emit]
    · obtain ⟨b, t, hbt, hb, hlen⟩ := encodeRune_head r h80
      have hdec : DecodeRuneInString (b :: (t ++ tail)) = (r, (EncodeRune r).length) := by
        rw [← List.cons_append, ← hbt]; exact decode_encode r hr tail
      have hdrop : List.drop (EncodeRune r).length (b :: (t ++ tail)) = tail := by
        rw [← List.cons_append, ← hbt]; exact List.drop_left' rfl
      have c1 : ¬ b = 0x22 := by omega
      have c2 : ¬ b = 0x5C := by omega
      have c3 : ¬ b < 0x20 := by omega
      have c4 : ¬ b < 0x80 := by omega
      simp only [escRune, h80, hls, if_false]
      rw [hbt, List.cons_append]
      simp only [unquoteLoop, c1, c2, c3, c4, if_false, hdec, hdrop]
      rw [hbt]

theorem emit_some (pre d rest : GoString) : emit pre (some (d, rest)) = some (pre ++ d, rest) := rfl

/-- The reader gives back a valid string from what the encoder wrote between the quotes. -/
theorem unquoteLoop_utf8 (cs : List Char) (rest : GoString) (fuel : Nat)
    (h : (cs.flatMap (fun c => escRune c.toNat)).length + 1 ≤ fuel) :
    unquoteLoop fuel (cs.flatMap (fun c => escRune c.toNat) ++ 0x22 :: rest)
      = some (utf8 cs, rest) := by
  induction cs generalizing fuel with
  | nil =>
    obtain ⟨f, rfl⟩ : ∃ f, fuel = f + 1 := ⟨fuel - 1, by omega⟩
    simp [unquoteLoop, utf8]
  | cons c cs ih =>
    rw [List.flatMap_cons, List.length_append] at h
    have hpos := escRune_length_pos c.toNat
    obtain ⟨f, rfl⟩ : ∃ f, fuel = f + 1 := ⟨fuel - 1, by omega⟩
    rw [List.flatMap_cons, List.append_assoc, unquoteLoop_escRune _ (char_isScalar c),
      ih f (by omega), emit_some, utf8_cons]

/-- A string literal written by `appendString` for a valid string is read back as the string. -/
theorem decodeString_appendString (cs : List Char) (rest : GoString) :
    decodeString (appendString (utf8 cs) ++ rest) = some (utf8 cs, rest) := by
  have he := appendStringLoop_utf8 cs (utf8 cs).length (Nat.le_refl _)
  simp only [appendString, he, List.singleton_append, List.cons_append, List.append_assoc,
    decodeString, if_true]
  apply unquoteLoop_utf8
  simp

/-! ## Reading back arrays, records and the whole text -/

theorem skipWS_startsValue (s rest : GoString) (h : StartsValue s) :
    skipWS (s ++ rest) = s ++ rest := by
  obtain ⟨b, t, rfl, hb⟩ := h
  rcases hb with rfl | rfl <;> simp [skipWS]

theorem arrayElems_length {α : Type} (enc : α → GoString) (i : Nat) (l : List α) :
    l.length ≤ (arrayElems enc (i + 1) l).length := by
  induction l generalizing i with
  | nil => simp
  | cons x xs ih =>
    have := ih (i + 1)
    have hi : 0 < i + 1 := Nat.succ_pos i
    simp only [arrayElems, hi, if_true, List.length_append, List.length_cons, List.length_nil]
    omega

theorem decodeElems_arrayElems {α : Type} (dec : GoString → Option (α × GoString))
    (enc : α → GoString) (l : List α)
    (hdec : ∀ x ∈ l, ∀ rest, dec (enc x ++ rest) = some (x, rest))
    (hst : ∀ x ∈ l, StartsValue (enc x)) (i : Nat) (rest : GoString) (fuel : Nat)
    (hf : l.length + 1 ≤ fuel) :
    decodeElems dec fuel (arrayElems enc (i + 1) l ++ 0x5D :: rest) = some (l, rest) := by
  induction l generalizing i fuel with
  | nil =>
    obtain ⟨f, rfl⟩ : ∃ f, fuel = f + 1 := ⟨fuel - 1, by simp at hf; omega⟩
    simp [arrayElems, decodeElems, skipWS]
  | cons x xs ih =>
    obtain ⟨f, rfl⟩ : ∃ f, fuel = f + 1 := ⟨fuel - 1, by simp at hf; omega⟩
    have hx := hdec x (List.mem_cons_self _ _)
    have hs := hst x (List.mem_cons_self _ _)
    have ih' := ih (fun y hy => hdec y (List.mem_cons_of_mem _ hy))
      (fun y hy => hst y (List.mem_cons_of_mem _ hy)) (i + 1) f (by simp at hf ⊢; omega)
    have hi : 0 < i + 1 := Nat.succ_pos i
    simp only [arrayElems, hi, if_true, List.singleton_append, List.cons_append,
      List.nil_append, List.append_assoc, decodeElems]
    have h1 : skipWS (0x2C :: (enc x ++ (arrayElems enc (i + 1 + 1) xs ++ 0x5D :: rest)))
        = 0x2C :: (enc x ++ (arrayElems enc (i + 1 + 1) xs ++ 0x5D :: rest)) := by
      simp [skipWS]
    rw [h1]
    simp only [Nat.reduceEqDiff, if_false, if_true, skipWS_startsValue _ _ hs, hx, ih']
    simp

theorem decodeSlice_null {α : Type} (dec : GoString → Option (α × GoString)) (rest : GoString) :
    decodeSlice dec (ascii "null" ++ rest) = some (none, rest) := by
  have : ascii "null" = [0x6E, 0x75, 0x6C, 0x6C] := by decide
  simp [decodeSlice, this]

theorem decodeSlice_encodeSlice {α : Type} (dec : GoString → Option (α × GoString))
    (enc : α → GoString) (l : List α)
    (hdec : ∀ x ∈ l, ∀ rest, dec (enc x ++ rest) = some (x, rest))
    (hst : ∀ x ∈ l, StartsValue (enc x)) (rest : GoString) :
    decodeSlice dec (encodeSlice enc (some l) ++ rest) = some (some l, rest) := by
  have hn : ascii "null" = [0x6E, 0x75, 0x6C, 0x6C] := by decide
  cases l with
  | nil => simp [encodeSlice, arrayElems, decodeSlice, hn, skipWS]
  | cons x xs =>
    have hx := hdec x (List.mem_cons_self _ _)
    obtain ⟨b, t, hbt, hb⟩ := hst x (List.mem_cons_self _ _)
    have hs : StartsValue (enc x) := ⟨b, t, hbt, hb⟩
    have hel := decodeElems_arrayElems dec enc xs
      (fun y hy => hdec y (List.mem_cons_of_mem _ hy))
      (fun y hy => hst y (List.mem_cons_of_mem _ hy)) 0 rest
      (arrayElems enc (0 + 1) xs ++ 0x5D :: rest).length
      (by have := arrayElems_length enc 0 xs; simp only [List.length_append, List.length_cons]; omega)
    have hsk := skipWS_startsValue (enc x) (arrayElems enc (0 + 1) xs ++ 0x5D :: rest) hs
    have hb5 : ¬ b = 0x5D := by rcases hb with rfl | rfl <;> decide
    simp only [encodeSlice, arrayElems, Nat.lt_irrefl, if_false, List.nil_append,
      List.singleton_append, List.cons_append, List.append_assoc, decodeSlice, hn, List.take]
    simp only [List.cons.injEq, Nat.reduceEqDiff, false_and, if_false, if_true, hsk]
    rw [hbt] at hx ⊢
    simp only [List.cons_append] at hx ⊢
    simp only [hb5, if_false, hx, hel]
    simp

theorem skipWS_cons (c : Nat) (t : GoString)
    (h : ¬ (c = 0x20 ∨ c = 0x09 ∨ c = 0x0D ∨ c = 0x0A)) : skipWS (c :: t) = c :: t := by
  simp only [skipWS, h, if_false]

theorem skipWS_colon (t : GoString) : skipWS (0x3A :: t) = 0x3A :: t :=
  skipWS_cons _ _ (by decide)

theorem skipWS_comma (t : GoString) : skipWS (0x2C :: t) = 0x2C :: t :=
  skipWS_cons _ _ (by decide)

theorem skipWS_brace (t : GoString) : skipWS (0x7D :: t) = 0x7D :: t :=
  skipWS_cons _ _ (by decide)

theorem startsValue_appendString (s : GoString) : StartsValue (appendString s) :=
  ⟨0x22, appendStringLoop s.length s ++ [0x22], by simp [appendString], Or.inl rfl⟩

theorem startsValue_encodeQuote (q : Quote) : StartsValue (encodeQuote q) :=
  ⟨0x7B, _, by
    have : ascii "\x7b\"quote\":" = 0x7B :: ascii "\"quote\":" := by decide
    simp only [encodeQuote, this, List.cons_append]; rfl, Or.inr rfl⟩

theorem decodeString_valid (s : GoString) (h : ValidUTF8 s) (rest : GoString) :
    decodeString (appendString s ++ rest) = some (s, rest) := by
  obtain ⟨cs, rfl⟩ := h
  exact decodeString_appendString cs rest

theorem decodeString_key (key : String) (rest : GoString) (h : utf8 key.data = ascii key) :
    decodeString (appendString (ascii key) ++ rest) = some (ascii key, rest) :=
  decodeString_valid _ ⟨key.data, h.symm⟩ rest

theorem skipWS_encodeSlice {α : Type} (enc : α → GoString) (s : Slice α) (rest : GoString) :
    skipWS (encodeSlice enc s ++ rest) = encodeSlice enc s ++ rest := by
  cases s with
  | none =>
    have : ascii "null" = [0x6E, 0x75, 0x6C, 0x6C] := by decide
    simp [encodeSlice, this, skipWS]
  | some l => simp [encodeSlice, skipWS]

theorem decodeSlice_tags (tags : Slice GoString) (h : ∀ t ∈ elems tags, ValidUTF8 t)
    (rest : GoString) :
    decodeSlice decodeString (encodeSlice appendString tags ++ rest) = some (tags, rest) := by
  cases tags with
  | none => exact decodeSlice_null decodeString rest
  | some l =>
    exact decodeSlice_encodeSlice decodeString appendString l
      (fun x hx r => decodeString_valid x (h x hx) r)
      (fun x _ => startsValue_appendString x) rest

/-- The member `"quote":...` followed by a comma. -/
theorem decodeMembers_quote (f : Nat) (q : Quote) (text : GoString) (h : ValidUTF8 text)
    (r : GoString) (hr : StartsValue r) :
    decodeMembers (f + 1) q
        (appendString (ascii "quote") ++ 0x3A :: (appendString text ++ 0x2C :: r))
      = decodeMembers f { q with Text := text } r := by
  obtain ⟨b, t, rfl, hb⟩ := hr
  have hsk : skipWS (b :: t) = b :: t := by rcases hb with rfl | rfl <;> simp [skipWS]
  have hs := skipWS_startsValue (appendString text) (0x2C :: b :: t) (startsValue_appendString text)
  simp only [decodeMembers, decodeString_key "quote" _ (by decide), skipWS_colon, skipWS_comma,
    Nat.reduceEqDiff, if_false, if_true, hs, decodeString_valid text h, Option.map_some', hsk]

/-- The member `"author":...` followed by a comma. -/
theorem decodeMembers_author (f : Nat) (q : Quote) (author : GoString) (h : ValidUTF8 author)
    (r : GoString) (hr : StartsValue r) :
    decodeMembers (f + 1) q
        (appendString (ascii "author") ++ 0x3A :: (appendString author ++ 0x2C :: r))
      = decodeMembers f { q with Author := author } r := by
  obtain ⟨b, t, rfl, hb⟩ := hr
  have hsk : skipWS (b :: t) = b :: t := by rcases hb with rfl | rfl <;> simp [skipWS]
  have hs := skipWS_startsValue (appendString author) (0x2C :: b :: t)
    (startsValue_appendString author)
  have hk : ¬ ascii "author" = ascii "quote" := by decide
  simp only [decodeMembers, decodeString_key "author" _ (by decide), skipWS_colon, skipWS_comma,
    Nat.reduceEqDiff, if_false, if_true, hs, decodeString_valid author h, Option.map_some', hsk,
    hk]

/-- The member `"tags":...` followed by the closing brace. -/
theorem decodeMembers_tags (f : Nat) (q : Quote) (tags : Slice GoString)
    (h : ∀ t ∈ elems tags, ValidUTF8 t) (r : GoString) :
    decodeMembers (f + 1) q
        (appendString (ascii "tags") ++ 0x3A :: (encodeSlice appendString tags ++ 0x7D :: r))
      = some ({ q with Tags := tags }, r) := by
  have hk1 : ¬ ascii "tags" = ascii "quote" := by decide
  have hk2 : ¬ ascii "tags" = ascii "author" := by decide
  simp only [decodeMembers, decodeString_key "tags" _ (by decide), skipWS_colon, skipWS_brace,
    Nat.reduceEqDiff, if_false, if_true, skipWS_encodeSlice, decodeSlice_tags tags h,
    Option.map_some', hk1, hk2]

/-- An object written by the struct encoder for a record of UTF-8 text is read back as the
record. -/
theorem decodeQuote_encodeQuote (q : Quote) (h : q.Valid) (rest : GoString) :
    decodeQuote (encodeQuote q ++ rest) = some (q, rest) := by
  obtain ⟨text, author, tags⟩ := q
  obtain ⟨h1, h2, h3⟩ := h
  simp only at h1 h2 h3
  have k1 : ascii "\x7b\"quote\":" = 0x7B :: (appendString (ascii "quote") ++ [0x3A]) := by decide
  have k2 : ascii ",\"author\":" = 0x2C :: (appendString (ascii "author") ++ [0x3A]) := by decide
  have k3 : ascii ",\"tags\":" = 0x2C :: (appendString (ascii "tags") ++ [0x3A]) := by decide
  have k4 : ascii "\x7d" = [0x7D] := by decide
  obtain ⟨b, t, hbt, hb⟩ := startsValue_appendString (ascii "quote")
  have hb' : b = 0x22 := by
    have : appendString (ascii "quote") = 0x22 :: (appendStringLoop (ascii "quote").length
      (ascii "quote") ++ [0x22]) := by simp [appendString]
    rw [this] at hbt; exact (List.cons.inj hbt).1.symm
  subst hb'
  have e : encodeQuote ⟨text, author, tags⟩ ++ rest
      = 0x7B :: (appendString (ascii "quote") ++ 0x3A :: (appendString text ++ 0x2C ::
          (appendString (ascii "author") ++ 0x3A :: (appendString author ++ 0x2C ::
            (appendString (ascii "tags") ++ 0x3A :: (encodeSlice appendString tags
              ++ 0x7D :: rest)))))) := by
    simp only [encodeQuote, k1, k2, k3, k4, List.cons_append, List.append_assoc,
      List.nil_append, List.singleton_append]
  rw [e]
  have hq := startsValue_appendString (ascii "quote")
  have ha : StartsValue (appendString (ascii "author") ++ 0x3A :: (appendString author ++ 0x2C ::
      (appendString (ascii "tags") ++ 0x3A :: (encodeSlice appendString tags ++ 0x7D :: rest)))) :=
    ⟨0x22, _, by simp only [appendString, List.singleton_append, List.cons_append]; rfl, Or.inl rfl⟩
  have ht : StartsValue (appendString (ascii "tags") ++ 0x3A ::
      (encodeSlice appendString tags ++ 0x7D :: rest)) :=
    ⟨0x22, _, by simp only [appendString, List.singleton_append, List.cons_append]; rfl, Or.inl rfl⟩
  rw [decodeQuote]
  simp only [if_true]
  rw [skipWS_startsValue _ _ hq, hbt]
  simp only [List.cons_append, Nat.reduceEqDiff, if_false]
  rw [← List.cons_append, ← hbt]
  have key : ∀ n, 3 ≤ n → decodeMembers n ⟨[], [], none⟩
      (appendString (ascii "quote") ++ 0x3A :: (appendString text ++ 0x2C ::
        (appendString (ascii "author") ++ 0x3A :: (appendString author ++ 0x2C ::
          (appendString (ascii "tags") ++ 0x3A :: (encodeSlice appendString tags
            ++ 0x7D :: rest))))))
      = some (⟨text, author, tags⟩, rest) := by
    intro n hn
    obtain ⟨f, rfl⟩ : ∃ f, n = f + 1 + 1 + 1 := ⟨n - 3, by omega⟩
    rw [decodeMembers_quote _ _ _ h1 _ ha, decodeMembers_author _ _ _ h2 _ ht,
      decodeMembers_tags _ _ _ h3]
  exact key _ (by simp only [List.length_append, List.length_cons]; omega)

theorem skipWS_newline : skipWS [0x0A] = [] := by decide

/-- The text written by `Encode` for a slice of records of UTF-8 text is read back as the
slice. -/
theorem unmarshal_marshal (quotes : Slice Quote) (h : ∀ q ∈ elems quotes, q.Valid) :
    Unmarshal (marshal quotes ++ [0x0A]) = some quotes := by
  unfold Unmarshal marshal
  rw [skipWS_encodeSlice]
  cases quotes with
  | none =>
    have : encodeSlice encodeQuote (none : Slice Quote) = ascii "null" := rfl
    rw [this, decodeSlice_null]
    simp only [skipWS_newline, if_true]
  | some l =>
    rw [decodeSlice_encodeSlice decodeQuote encodeQuote l
      (fun q hq r => decodeQuote_encodeQuote q (h q hq) r)
      (fun q _ => startsValue_encodeQuote q)]
    simp only [skipWS_newline, if_true]

/-- C9 as stated fails for a `Text` that is not UTF-8 text: the encoder writes the byte `0xFF`
as the escape of U+FFFD, as it does the byte `0xFE`, so the decoded `Text` is U+FFFD, not the
byte. -/
theorem C9_invalid_bytes_not_restored :
    Unmarshal (Encode freshWriter (some [⟨[0xFF], ascii "A", some []⟩])).body
        = some (some [⟨[0xEF, 0xBF, 0xBD], ascii "A", some []⟩])
      ∧ Unmarshal (Encode freshWriter (some [⟨[0xFF], ascii "A", some []⟩])).body
        ≠ some (some [⟨[0xFF], ascii "A", some []⟩])
      ∧ (Encode freshWriter (some [⟨[0xFF], ascii "A", some []⟩])).body
        = (Encode freshWriter (some [⟨[0xFE], ascii "A", some []⟩])).body := by
  refine ⟨by decide, by decide, by decide⟩

/-- C9, amended: for every sequence of records whose `Text`, `Author` and tags are UTF-8 text
(any `Tags`, nil and empty included), decoding the bytes written by the handler's encoder yields
the same sequence: same length, same `Text`, `Author` and `Tags`, same orders. -/
theorem C9_roundtrip_of_utf8_text (quotes : Slice Quote) (h : ∀ q ∈ elems quotes, q.Valid) :
    Unmarshal (Encode freshWriter quotes).body = some quotes := by
  have hb : (Encode freshWriter quotes).body = marshal quotes ++ [0x0A] := rfl
  rw [hb]
  exact unmarshal_marshal quotes h

/-- C9, amended, at two records: one with accents, markup characters, a line break and two
tags, one with empty strings and nil `Tags`. -/
theorem C9_roundtrip_of_utf8_text_witness :
    (∀ q ∈ elems (some [(⟨utf8 "Été <b>&\n\"x\"".data, utf8 "Zoë".data,
          some [utf8 "/tag/é/".data, utf8 "".data]⟩ : Quote), ⟨utf8 [], utf8 [], none⟩]),
        q.Valid)
      ∧ Unmarshal (Encode freshWriter (some [(⟨utf8 "Été <b>&\n\"x\"".data, utf8 "Zoë".data,
          some [utf8 "/tag/é/".data, utf8 "".data]⟩ : Quote), ⟨utf8 [], utf8 [], none⟩])).body
        = some (some [(⟨utf8 "Été <b>&\n\"x\"".data, utf8 "Zoë".data,
            some [utf8 "/tag/é/".data, utf8 "".data]⟩ : Quote), ⟨utf8 [], utf8 [], none⟩]) :=
  have hv : ∀ q ∈ elems (some [(⟨utf8 "Été <b>&\n\"x\"".data, utf8 "Zoë".data,
      some [utf8 "/tag/é/".data, utf8 "".data]⟩ : Quote), ⟨utf8 [], utf8 [], none⟩]),
      q.Valid := by
    intro q hq
    simp only [elems, List.mem_cons, List.mem_singleton, List.not_mem_nil, or_false] at hq
    rcases hq with rfl | rfl
    · refine ⟨⟨_, rfl⟩, ⟨_, rfl⟩, ?_⟩
      intro t ht
      simp only [elems, List.mem_cons, List.mem_singleton, List.not_mem_nil, or_false] at ht
      rcases ht with rfl | rfl <;> exact ⟨_, rfl⟩
    · exact ⟨⟨_, rfl⟩, ⟨_, rfl⟩, fun t ht => by simp [elems] at ht⟩
  ⟨hv, C9_roundtrip_of_utf8_text _ hv⟩

end GoQuote
